import Mathlib

/-!
Shallow embedding of `seq_wall_ultra_nav_sync_fix.py` (sequence-wall viewer):
filename pattern matching (`SEQ_PATTERNS`), sequence discovery
(`find_sequences`), the thumbnail codec resize step
(`resize_rgba_contain_premultiplied`), the two-tier thumbnail cache
(`ThumbCache`), and the visibility-driven scheduler tick
(`SequenceWallApp._tick` / `SeqTile.step`).

Strings are modelled as Lean `String`/`List Char`; Python's stable `sort` is
modelled by the stable `List.insertionSort`; floating-point arithmetic in the
resize scale computation is modelled by exact rationals; the digit class `\d`
is modelled as ASCII `0`-`9`.
-/

namespace SeqWall

/-! ### Decimal digit utilities (model of `int(...)` / `str.zfill`) -/

def isDig (c : Char) : Bool := 48 ≤ c.toNat && c.toNat ≤ 57

def digVal (c : Char) : Nat := c.toNat - 48

def digChar (n : Nat) : Char := Char.ofNat (48 + n)

/-- The numeric value of a decimal digit string, as computed by Python `int`. -/
def strVal (l : List Char) : Nat := l.foldl (fun n c => 10 * n + digVal c) 0

/-- Decimal representation of a natural number, as produced by Python `str`. -/
def toDec (n : Nat) : List Char :=
  if n = 0 then ['0'] else ((Nat.digits 10 n).map digChar).reverse

/-- Left pad with zeros to width `w`, as Python `str.zfill`. -/
def zfill (w : Nat) (l : List Char) : List Char :=
  List.replicate (w - l.length) '0' ++ l

/-! ### The filename pattern model (`SEQ_PATTERNS`)

Pattern 1: `^(?P<prefix>.*?)[._-](?P<index>\d{3,6})\.(?P<ext>png|jpg|jpeg|bmp|tif|tiff)$`
Pattern 2: `^(?P<prefix>.*?)(?P<index>\d{3,6})\.(?P<ext>...)$`, both `re.IGNORECASE`.

The lazy group `.*?` tries prefix split points left to right; at a fixed split
the greedy `\d{3,6}` must consume the whole leading digit run of the remainder
(backtracking to fewer digits always fails, since the following character
would still be a digit, never the required `.`), so the tail after the prefix
(and separator) matches exactly when its leading digit run has length 3..6 and
is followed by `.` and a recognized extension at end of string. `.*?` cannot
cross a newline.
-/

/-- Python `str.lower` (charwise; ASCII case mapping). -/
def lowerStr (s : String) : String := ⟨s.data.map Char.toLower⟩

def seps : List Char := ['.', '_', '-']

def extAlternatives : List (List Char) :=
  ["png".data, "jpg".data, "jpeg".data, "bmp".data, "tif".data, "tiff".data]

def isValidExt (e : List Char) : Bool :=
  extAlternatives.contains (e.map Char.toLower)

/-- Matches `\d{3,6}\.(png|jpg|jpeg|bmp|tif|tiff)$` against `t`, returning the
captured index digits and raw extension. -/
def matchTail (t : List Char) : Option (List Char × List Char) :=
  if 3 ≤ (t.takeWhile isDig).length ∧ (t.takeWhile isDig).length ≤ 6 then
    match t.dropWhile isDig with
    | '.' :: e => if isValidExt e then some (t.takeWhile isDig, e) else none
    | _ => none
  else none

/-- Pattern 1: lazy prefix (accumulated reversed in `acc`), then a separator
from `[._-]`, then `matchTail`. -/
def matchP1Go (acc : List Char) : List Char → Option (List Char × List Char × List Char)
  | [] => none
  | c :: rest =>
    match (if seps.contains c then matchTail rest else none) with
    | some de => some (acc.reverse, de.1, de.2)
    | none => if c = '\n' then none else matchP1Go (c :: acc) rest

/-- Pattern 2: lazy prefix, no separator, then `matchTail`.
(`matchTail [] = none` by computation, so the empty case is immediate.) -/
def matchP2Go (acc : List Char) : List Char → Option (List Char × List Char × List Char)
  | [] => none
  | c :: rest =>
    match matchTail (c :: rest) with
    | some de => some (acc.reverse, de.1, de.2)
    | none => if c = '\n' then none else matchP2Go (c :: acc) rest

/-- Model of `for pat in SEQ_PATTERNS: m = pat.match(f); if m: ...; break`. -/
def matchRawL (s : List Char) : Option (List Char × List Char × List Char) :=
  match matchP1Go [] s with
  | some r => some r
  | none => matchP2Go [] s

/-- The captured groups of the first matching pattern. -/
structure RawMatch where
  pre : String
  idxStr : String
  extRaw : String
deriving Repr, DecidableEq

def matchRaw (s : String) : Option RawMatch :=
  (matchRawL s.data).map fun r => ⟨⟨r.1⟩, ⟨r.2.1⟩, ⟨r.2.2⟩⟩

/-- The PatternMatcher output used by `find_sequences`:
`(prefix, int(idx_str), ext.lower(), len(idx_str))`. -/
structure Parsed where
  pref : String
  idx : Nat
  ext : String
  width : Nat
deriving Repr, DecidableEq

def parseFilename (s : String) : Option Parsed :=
  (matchRaw s).map fun m =>
    ⟨m.pre, strVal m.idxStr.data, lowerStr m.extRaw, m.idxStr.data.length⟩

/-! ### Sequence discovery (`find_sequences`)

A directory walk is modelled as the list of `(dirpath, filenames)` pairs that
`os.walk` yields; Python's stable `list.sort` / `sorted` are modelled by the
stable `List.insertionSort`; `dict` is an insertion-ordered association list
with overwrite-in-place semantics. -/

def SUPPORTED_EXTS : List String := [".png", ".jpg", ".jpeg", ".bmp", ".tif", ".tiff"]

def lowerEndsWithSupported (f : String) : Bool :=
  SUPPORTED_EXTS.any fun e => e.data.isSuffixOf (lowerStr f).data

structure SequenceItem where
  key : String
  folder : String
  pref : String
  ext : String
  frames : List String
  digits : Nat
deriving Repr, DecidableEq

/-- Model of `os.path.join` for POSIX paths, second component relative. -/
def joinPath (a b : String) : String :=
  if a.data = [] then b
  else if a.data.getLast? = some '/' then ⟨a.data ++ b.data⟩
  else ⟨a.data ++ '/' :: b.data⟩

/-- Grouping key `(prefix, ext.lower())`. -/
abbrev GroupKey := String × String

/-- A `temp` entry `(idx, filename, len(idx_str))`. -/
abbrev Entry := Nat × String × Nat

/-- Model of `temp.setdefault(k, []).append(e)`: appends to the existing group,
preserving key insertion order, or adds a new group at the end. -/
def upsertEntry (k : GroupKey) (e : Entry) :
    List (GroupKey × List Entry) → List (GroupKey × List Entry)
  | [] => [(k, [e])]
  | (k', es) :: rest =>
    if k' = k then (k', es ++ [e]) :: rest else (k', es) :: upsertEntry k e rest

/-- The `temp` grouping built by the per-directory candidate loop. -/
def buildTemp (filenames : List String) : List (GroupKey × List Entry) :=
  (filenames.filter lowerEndsWithSupported).foldl
    (fun temp f =>
      match matchRaw f with
      | some m => upsertEntry (m.pre, lowerStr m.extRaw)
          (strVal m.idxStr.data, f, m.idxStr.data.length) temp
      | none => temp)
    []

/-- Model of `sequences[key] = item` (dict assignment: overwrite in place, else append). -/
def upsertSeq (k : String) (v : SequenceItem) :
    List (String × SequenceItem) → List (String × SequenceItem)
  | [] => [(k, v)]
  | (k', v') :: rest =>
    if k' = k then (k', v) :: rest else (k', v') :: upsertSeq k v rest

/-- Order used by `items.sort(key=lambda x: x[0])`. -/
def entryLE (x y : Entry) : Prop := x.1 ≤ y.1

instance : DecidableRel entryLE := fun x y => inferInstanceAs (Decidable (x.1 ≤ y.1))

instance : IsTotal Entry entryLE := ⟨fun x y => Nat.le_total x.1 y.1⟩

instance : IsTrans Entry entryLE := ⟨fun _ _ _ => Nat.le_trans⟩

/-- Model of the key `os.path.join(dirpath, f"{prefix}[##].{ext}")`. -/
def mkSeqKey (dirpath : String) (g : GroupKey × List Entry) : String :=
  joinPath dirpath ⟨g.1.1.data ++ "[##].".data ++ g.1.2.data⟩

/-- The `SequenceItem(...)` built for one qualifying group: frames in
index-sorted order (full joined paths), digit width from the first (lowest
index) entry. -/
def mkSeqItem (dirpath : String) (g : GroupKey × List Entry) : SequenceItem :=
  let sortedItems := List.insertionSort entryLE g.2
  ⟨mkSeqKey dirpath g, dirpath, g.1.1, g.1.2,
   sortedItems.map (fun e => joinPath dirpath e.2.1),
   (sortedItems.headD (0, "", 0)).2.2⟩

/-- One iteration of the `for dirpath, _, filenames in os.walk(root)` body:
group candidates, sort each group by index, and record groups of ≥ 3 frames. -/
def processDir (acc : List (String × SequenceItem)) (dirpath : String)
    (filenames : List String) : List (String × SequenceItem) :=
  (buildTemp filenames).foldl
    (fun acc g =>
      if 3 ≤ (List.insertionSort entryLE g.2).length then
        upsertSeq (mkSeqKey dirpath g) (mkSeqItem dirpath g) acc
      else acc)
    acc

/-- Order used by `sorted(sequences.values(), key=lambda s: s.key.lower())`. -/
def seqKeyLE (a b : SequenceItem) : Prop := lowerStr a.key ≤ lowerStr b.key

instance : DecidableRel seqKeyLE := fun a b =>
  inferInstanceAs (Decidable (lowerStr a.key ≤ lowerStr b.key))

instance : IsTotal SequenceItem seqKeyLE := ⟨fun a b => le_total (lowerStr a.key) (lowerStr b.key)⟩

instance : IsTrans SequenceItem seqKeyLE := ⟨fun _ _ _ => le_trans⟩

def find_sequences (walk : List (String × List String)) : List SequenceItem :=
  let seqs := walk.foldl (fun acc d => processDir acc d.1 d.2) []
  List.insertionSort seqKeyLE (seqs.map Prod.snd)

/-- The basename of a path (component after the last `/`). -/
def basenameOf (p : String) : String :=
  ⟨((p.data.reverse.takeWhile (fun c => c ≠ '/')).reverse)⟩

/-- The integer index a frame's filename parses to (re-running the matcher on
the basename), used to state ordering claims about `SequenceItem.frames`. -/
def parseIdxOfPath (p : String) : Option Nat :=
  (matchRaw (basenameOf p)).map fun m => strVal m.idxStr.data

/-! ### Thumbnail codec: `resize_rgba_contain_premultiplied`

Channel planes are opaque (plane type `P` is a parameter), as the spec scopes
out the resampling filter's pixel output; `ImageChops.multiply` and
`Image.resize(..., LANCZOS)` are parameters `mult` and `resample`. The
floating-point scale computation is modelled with exact rationals; Python
`int()` on a nonnegative value is `⌊·⌋`. -/

structure RGBAImage (P : Type) where
  width : Nat
  height : Nat
  r : P
  g : P
  b : P
  a : P

/-- The code of `resize_rgba_contain_premultiplied` (input already RGBA). -/
def resize_rgba_contain_premultiplied {P : Type} (mult : P → P → P)
    (resample : P → Nat → Nat → P) (img : RGBAImage P) (box : Nat × Nat) : RGBAImage P :=
  let w := img.width
  let h := img.height
  let scale : ℚ := min ((box.1 : ℚ) / ((max 1 w : Nat) : ℚ)) ((box.2 : ℚ) / ((max 1 h : Nat) : ℚ))
  let new_w := max 1 (Int.toNat ⌊(w : ℚ) * scale⌋)
  let new_h := max 1 (Int.toNat ⌊(h : ℚ) * scale⌋)
  { width := new_w, height := new_h,
    r := resample (mult img.r img.a) new_w new_h,
    g := resample (mult img.g img.a) new_w new_h,
    b := resample (mult img.b img.a) new_w new_h,
    a := resample img.a new_w new_h }

/-- Modelled from the spec's words (§4.3): premultiply each color plane by
alpha, then resample every plane to the largest aspect-preserving size fitting
the box, with `scale = min(box.width/src.width, box.height/src.height)`,
dimensions floored, minimum 1px. Stated for comparison with the code. -/
def resize_contain_spec {P : Type} (mult : P → P → P)
    (resample : P → Nat → Nat → P) (img : RGBAImage P) (box : Nat × Nat) : RGBAImage P :=
  let s : ℚ := min ((box.1 : ℚ) / (img.width : ℚ)) ((box.2 : ℚ) / (img.height : ℚ))
  let nw := max 1 (Int.toNat ⌊(img.width : ℚ) * s⌋)
  let nh := max 1 (Int.toNat ⌊(img.height : ℚ) * s⌋)
  { width := nw, height := nh,
    r := resample (mult img.r img.a) nw nh,
    g := resample (mult img.g img.a) nw nh,
    b := resample (mult img.b img.a) nw nh,
    a := resample img.a nw nh }

/-! ### SHA-1 (model of `hashlib.sha1(...).hexdigest()`)

Bytes and 32-bit words are `Nat` with explicit reduction mod `2^8` / `2^32`. -/

namespace SHA1

def w32 (n : Nat) : Nat := n % 4294967296

def rotl (s n : Nat) : Nat := w32 (n * 2 ^ s + n / 2 ^ (32 - s))

/-- Big-endian byte expansion of `n` into `k` bytes. -/
def beBytes (k n : Nat) : List Nat :=
  (List.range k).map fun i => n / 2 ^ (8 * (k - 1 - i)) % 256

/-- Message padding: `0x80`, zeros to 56 mod 64, then the 64-bit bit length. -/
def padMsg (msg : List Nat) : List Nat :=
  let zeros := (64 + 56 - (msg.length + 1) % 64) % 64
  msg ++ [128] ++ List.replicate zeros 0 ++ beBytes 8 (8 * msg.length)

def chunksOf64 (l : List Nat) : List (List Nat) :=
  if h : l = [] then []
  else (l.take 64) :: chunksOf64 (l.drop 64)
termination_by l.length
decreasing_by
  simp only [List.length_drop]
  exact Nat.sub_lt (List.length_pos.mpr h) (by omega)

/-- Extend the 16 message-schedule words by `n` more words. -/
def extendW (w : List Nat) : Nat → List Nat
  | 0 => w
  | n + 1 =>
    let x := (w.getD (w.length - 3) 0) ^^^ (w.getD (w.length - 8) 0) ^^^
             (w.getD (w.length - 14) 0) ^^^ (w.getD (w.length - 16) 0)
    extendW (w ++ [rotl 1 x]) n

def roundStep (w : List Nat) (st : Nat × Nat × Nat × Nat × Nat) (i : Nat) :
    Nat × Nat × Nat × Nat × Nat :=
  let (a, b, c, d, e) := st
  let f :=
    if i < 20 then (b &&& c) ||| ((4294967295 - b) &&& d)
    else if i < 40 then b ^^^ c ^^^ d
    else if i < 60 then (b &&& c) ||| (b &&& d) ||| (c &&& d)
    else b ^^^ c ^^^ d
  let k :=
    if i < 20 then 1518500249
    else if i < 40 then 1859775393
    else if i < 60 then 2400959708
    else 3395469782
  (w32 (rotl 5 a + f + e + k + w.getD i 0), a, rotl 30 b, c, d)

def processChunk (hs : List Nat) (chunk : List Nat) : List Nat :=
  let ws16 := (List.range 16).map fun j =>
    chunk.getD (4 * j) 0 * 16777216 + chunk.getD (4 * j + 1) 0 * 65536 +
    chunk.getD (4 * j + 2) 0 * 256 + chunk.getD (4 * j + 3) 0
  let ws := extendW ws16 64
  let init := (hs.getD 0 0, hs.getD 1 0, hs.getD 2 0, hs.getD 3 0, hs.getD 4 0)
  let fin := (List.range 80).foldl (roundStep ws) init
  [w32 (hs.getD 0 0 + fin.1), w32 (hs.getD 1 0 + fin.2.1), w32 (hs.getD 2 0 + fin.2.2.1),
   w32 (hs.getD 3 0 + fin.2.2.2.1), w32 (hs.getD 4 0 + fin.2.2.2.2)]

def digestWords (msg : List Nat) : List Nat :=
  (chunksOf64 (padMsg msg)).foldl processChunk
    [1732584193, 4023233417, 2562383102, 271733878, 3285377520]

def hexDig (n : Nat) : Char := if n < 10 then Char.ofNat (48 + n) else Char.ofNat (87 + n)

def hex8 (n : Nat) : List Char := (List.range 8).map fun i => hexDig (n / 16 ^ (7 - i) % 16)

def hexdigest (msg : List Nat) : String := ⟨((digestWords msg).map hex8).flatten⟩

end SHA1

/-- UTF-8 encoding of one character (model of `str.encode("utf-8")`). -/
def utf8Bytes (c : Char) : List Nat :=
  let n := c.toNat
  if n < 128 then [n]
  else if n < 2048 then [192 + n / 64, 128 + n % 64]
  else if n < 65536 then [224 + n / 4096, 128 + n / 64 % 64, 128 + n % 64]
  else [240 + n / 262144, 128 + n / 4096 % 64, 128 + n / 64 % 64, 128 + n % 64]

def sha1hexOfString (s : String) : String :=
  SHA1.hexdigest ((s.data.map utf8Bytes).flatten)

/-! ### The two-tier thumbnail cache (`ThumbCache`)

The image type is a parameter (decoded bitmaps are opaque to the cache logic);
the disk tier is an explicit map from disk filename to stored image. -/

def alookup {κ ν : Type} [DecidableEq κ] (k : κ) : List (κ × ν) → Option ν
  | [] => none
  | (k', v) :: rest => if k' = k then some v else alookup k rest

def aupsert {κ ν : Type} [DecidableEq κ] (k : κ) (v : ν) : List (κ × ν) → List (κ × ν)
  | [] => [(k, v)]
  | (k', v') :: rest => if k' = k then (k', v) :: rest else (k', v') :: aupsert k v rest

structure ThumbCache (Img : Type) where
  mem : List ((String × Nat × Nat) × Img)
  root_dir : String
  size : Nat

namespace ThumbCache

variable {Img : Type}

/-- Model of `os.path.join(root_dir, ".seqwall_cache")`. -/
def cache_dir (c : ThumbCache Img) : String := joinPath c.root_dir ".seqwall_cache"

/-- The memory-tier key `(path, self.size, frame_idx)`. -/
def key (c : ThumbCache Img) (path : String) (frame_idx : Nat) : String × Nat × Nat :=
  (path, c.size, frame_idx)

/-- The hashed string `f"{path}|{self.size}|{frame_idx}"`. -/
def keyString (size : Nat) (path : String) (frame_idx : Nat) : String :=
  path ++ "|" ++ toString size ++ "|" ++ toString frame_idx

def disk_path (c : ThumbCache Img) (path : String) (frame_idx : Nat) : String :=
  joinPath c.cache_dir (sha1hexOfString (keyString c.size path frame_idx) ++ ".png")

/-- Model of `ThumbCache.get`. Returns the result, the updated cache (a disk hit
populates the memory tier), and whether a disk decode (`Image.open`) ran. -/
def get (c : ThumbCache Img) (disk : List (String × Img)) (path : String) (frame_idx : Nat) :
    Option Img × ThumbCache Img × Bool :=
  let k := c.key path frame_idx
  match alookup k c.mem with
  | some ph => (some ph, c, false)
  | none =>
    match alookup (c.disk_path path frame_idx) disk with
    | some im => (some im, { c with mem := aupsert k im c.mem }, true)
    | none => (none, c, false)

/-- Model of `ThumbCache.put` (best-effort disk write modelled as succeeding). -/
def put (c : ThumbCache Img) (disk : List (String × Img)) (path : String) (frame_idx : Nat)
    (image : Img) : ThumbCache Img × List (String × Img) × Img :=
  let k := c.key path frame_idx
  ({ c with mem := aupsert k image c.mem },
   aupsert (c.disk_path path frame_idx) image disk, image)

end ThumbCache

/-! ### Tiles and the scheduler tick (`SeqTile`, `SequenceWallApp._tick`)

A tile's mutable state mirrors `SeqTile` (`idx`, `running`, `first_loaded`,
`loading_first`, `size`) plus its on-screen geometry (`winfo_y`,
`winfo_height`). Worker-pool submissions are recorded as `Job`s tagged with
the index of the originating tile; jobs do not complete during the tick. -/

structure TileState where
  frames : List String
  idx : Nat
  running : Bool
  first_loaded : Bool
  loading_first : Bool
  size : Nat
  y : Int
  height : Nat
deriving Repr, DecidableEq

/-- A decode job handed to the worker pool (`pool.submit(self._load_and_cache,
path, frame_idx)`), tagged with the originating tile's position. -/
structure Job where
  tile : Nat
  path : String
  frameIdx : Nat
deriving Repr, DecidableEq

/-- The visibility test `ty < y1 and ty + th > y0` with `th = t.winfo_height() or (t.size + 32)`. -/
def tileVisible (t : TileState) (y0 y1 : Int) : Bool :=
  let th : Int := if t.height = 0 then (t.size : Int) + 32 else (t.height : Int)
  decide (t.y < y1) && decide (t.y + th > y0)

/-- Model of `SeqTile.ensure_first_frame_loaded` (cache present, pool present). -/
def ensureFirst {Img : Type} (tid : Nat) (t : TileState) (cache : ThumbCache Img)
    (disk : List (String × Img)) : TileState × ThumbCache Img × List Job :=
  if t.first_loaded || t.loading_first || t.frames.isEmpty then (t, cache, [])
  else
    let t1 := { t with loading_first := true }
    let path := t.frames.headD ""
    let r := cache.get disk path 0
    match r.1 with
    | some _ => ({ t1 with first_loaded := true, loading_first := false }, r.2.1, [])
    | none => (t1, r.2.1, [⟨tid, path, 0⟩])

/-- Model of `SeqTile.step`. -/
def stepTile {Img : Type} (tid : Nat) (t : TileState) (stp : Nat) (cache : ThumbCache Img)
    (disk : List (String × Img)) : TileState × ThumbCache Img × List Job :=
  if !t.running || t.frames.isEmpty then (t, cache, [])
  else if !t.first_loaded then ensureFirst tid t cache disk
  else
    let newIdx := (t.idx + stp) % t.frames.length
    let t1 := { t with idx := newIdx }
    let path := t.frames.getD newIdx ""
    let r := cache.get disk path newIdx
    match r.1 with
    | some _ => (t1, r.2.1, [])
    | none => (t1, r.2.1, [⟨tid, path, newIdx⟩])

/-- The body of the `for t in self.tiles` loop of `_tick`, threading the shared
cache through and collecting submitted jobs. -/
def tickGo {Img : Type} (play : Bool) (stp : Nat) (y0 y1 : Int)
    (disk : List (String × Img)) (tid : Nat) :
    List TileState → ThumbCache Img → List TileState × ThumbCache Img × List Job
  | [], cache => ([], cache, [])
  | t :: ts, cache =>
    if tileVisible t y0 y1 then
      let e := ensureFirst tid t cache disk
      let s := if play then stepTile tid e.1 stp e.2.1 disk else (e.1, e.2.1, [])
      let rest := tickGo play stp y0 y1 disk (tid + 1) ts s.2.1
      (s.1 :: rest.1, rest.2.1, e.2.2 ++ s.2.2 ++ rest.2.2)
    else
      let rest := tickGo play stp y0 y1 disk (tid + 1) ts cache
      (t :: rest.1, rest.2.1, rest.2.2)

structure AppState (Img : Type) where
  tiles : List TileState
  cache : ThumbCache Img
  disk : List (String × Img)
  animate : Bool
  frame_step : Nat
  visY0 : Int
  visY1 : Int

/-- Model of `SequenceWallApp._tick`. -/
def tick {Img : Type} (st : AppState Img) : AppState Img × List Job :=
  if st.tiles.isEmpty then (st, [])
  else
    let stp := max 1 st.frame_step
    let r := tickGo st.animate stp st.visY0 st.visY1 st.disk 0 st.tiles st.cache
    ({ st with tiles := r.1, cache := r.2.1 }, r.2.2)

/-- Model of `SeqTile._toggle`. -/
def toggleTile (t : TileState) : TileState := { t with running := !t.running }

/-! ## Lemmas: decimal digit strings round-trip -/

theorem digVal_lt_ten {c : Char} (h : isDig c = true) : digVal c < 10 := by
  simp only [isDig, Bool.and_eq_true, decide_eq_true_eq] at h
  unfold digVal
  omega

theorem digChar_digVal {c : Char} (h : isDig c = true) : digChar (digVal c) = c := by
  simp only [isDig, Bool.and_eq_true, decide_eq_true_eq] at h
  have h48 : 48 + digVal c = c.toNat := by unfold digVal; omega
  rw [digChar, h48, Char.ofNat_toNat]

theorem digVal_ne_zero {c : Char} (h : isDig c = true) (h0 : c ≠ '0') : digVal c ≠ 0 := by
  simp only [isDig, Bool.and_eq_true, decide_eq_true_eq] at h
  intro hv
  apply h0
  have ht : c.toNat = 48 := by unfold digVal at hv; omega
  have := congrArg Char.ofNat ht
  rwa [Char.ofNat_toNat] at this

theorem strVal_append_singleton (l : List Char) (c : Char) :
    strVal (l ++ [c]) = 10 * strVal l + digVal c := by
  simp [strVal, List.foldl_append]

theorem strVal_eq_ofDigits (l : List Char) :
    strVal l = Nat.ofDigits 10 ((l.map digVal).reverse) := by
  induction l using List.reverseRecOn with
  | nil => simp [strVal, Nat.ofDigits]
  | append_singleton l c ih =>
    rw [strVal_append_singleton, ih]
    simp [Nat.ofDigits_cons]
    ring

theorem strVal_cons_zero (t : List Char) : strVal ('0' :: t) = strVal t := by
  have h0 : 10 * 0 + digVal '0' = 0 := by decide
  simp only [strVal, List.foldl_cons, h0]

/-- Decimal inversion with no leading zero. -/
theorem toDec_strVal {l : List Char} (hne : l ≠ [])
    (hd : ∀ c ∈ l, isDig c = true) (h0 : l.head hne ≠ '0') :
    toDec (strVal l) = l := by
  have hrw : strVal l = Nat.ofDigits 10 ((l.map digVal).reverse) := strVal_eq_ofDigits l
  have hLne : (l.map digVal).reverse ≠ [] := by
    simp [List.reverse_eq_nil_iff, List.map_eq_nil_iff, hne]
  have hlt : ∀ x ∈ (l.map digVal).reverse, x < 10 := by
    intro x hx
    rw [List.mem_reverse, List.mem_map] at hx
    obtain ⟨c, hc, rfl⟩ := hx
    exact digVal_lt_ten (hd c hc)
  have hlast : ∀ (hh : (l.map digVal).reverse ≠ []),
      (l.map digVal).reverse.getLast hh ≠ 0 := by
    intro hh
    have h1 : (l.map digVal).reverse.getLast? = (l.map digVal).head? :=
      List.getLast?_reverse _
    have h2 : (l.map digVal).reverse.getLast? = some ((l.map digVal).reverse.getLast hh) :=
      List.getLast?_eq_getLast _ hh
    have h3 : (l.map digVal).head? = some (digVal (l.head hne)) := by
      cases l with
      | nil => exact absurd rfl hne
      | cons a t => rfl
    have h4 : (l.map digVal).reverse.getLast hh = digVal (l.head hne) := by
      have := h2.symm.trans (h1.trans h3)
      exact Option.some.inj this
    rw [h4]
    exact digVal_ne_zero (hd _ (List.head_mem hne)) h0
  have hdig : Nat.digits 10 (strVal l) = (l.map digVal).reverse := by
    rw [hrw]
    exact Nat.digits_ofDigits 10 (by norm_num) _ hlt hlast
  have hpos : strVal l ≠ 0 := by
    intro hz
    rw [hz, Nat.digits_zero] at hdig
    exact hLne hdig.symm
  rw [toDec, if_neg hpos, hdig, List.map_reverse, List.reverse_reverse, List.map_map]
  calc l.map (digChar ∘ digVal) = l.map id :=
        List.map_congr_left (fun c hc => digChar_digVal (hd c hc))
    _ = l := List.map_id l

/-- The numeric round-trip: a nonempty digit string is recovered from its
value zero-padded to its width (Python `str(int(s)).zfill(len(s)) == s`). -/
theorem zfill_toDec_strVal {l : List Char} (hne : l ≠ [])
    (hd : ∀ c ∈ l, isDig c = true) :
    zfill l.length (toDec (strVal l)) = l := by
  induction l with
  | nil => exact absurd rfl hne
  | cons c t ih =>
    by_cases hc : c = '0'
    · subst hc
      cases ht : t with
      | nil =>
        show zfill 1 (toDec (strVal ['0'])) = ['0']
        decide
      | cons a t' =>
        rw [← ht]
        have htne : t ≠ [] := by rw [ht]; exact List.cons_ne_nil a t'
        have htd : ∀ x ∈ t, isDig x = true := fun x hx => hd x (List.mem_cons_of_mem _ hx)
        have iht := ih htne htd
        have hvz : strVal ('0' :: t) = strVal t := strVal_cons_zero t
        rw [hvz]
        have hlen : (toDec (strVal t)).length ≤ t.length := by
          by_contra hgt
          push_neg at hgt
          have : zfill t.length (toDec (strVal t)) = toDec (strVal t) := by
            unfold zfill
            rw [Nat.sub_eq_zero_of_le (Nat.le_of_lt hgt)]
            rfl
          rw [this] at iht
          have := congrArg List.length iht
          omega
        unfold zfill at iht ⊢
        have harith : ('0' :: t).length - (toDec (strVal t)).length
            = (t.length - (toDec (strVal t)).length) + 1 := by
          simp only [List.length_cons]
          omega
        rw [harith, List.replicate_succ, List.cons_append, iht]
    · have hhead : ('0' :: t ≠ []) → True := fun _ => trivial
      have hne' : c :: t ≠ [] := List.cons_ne_nil c t
      have h0 : (c :: t).head hne' ≠ '0' := hc
      have htd : toDec (strVal (c :: t)) = c :: t := toDec_strVal hne' hd h0
      rw [htd]
      unfold zfill
      rw [Nat.sub_self]
      rfl

/-! ## Lemmas: pattern matcher inversion -/

theorem matchTail_inv {t ds e : List Char} (h : matchTail t = some (ds, e)) :
    t = ds ++ '.' :: e ∧ (∀ c ∈ ds, isDig c = true) ∧
    3 ≤ ds.length ∧ ds.length ≤ 6 ∧ isValidExt e = true := by
  unfold matchTail at h
  split at h
  case isTrue hlen =>
    split at h
    case h_1 e' heq =>
      split at h
      case isTrue hv =>
        injection h with h1
        injection h1 with hds he
        subst hds
        subst he
        refine ⟨?_, ?_, hlen.1, hlen.2, hv⟩
        · conv_lhs => rw [← List.takeWhile_append_dropWhile (p := isDig) (l := t)]
          rw [heq]
        · intro c hc
          exact List.mem_takeWhile_imp hc
      case isFalse hv => exact absurd h (by simp)
    case h_2 => exact absurd h (by simp)
  case isFalse => exact absurd h (by simp)

theorem matchP1Go_inv :
    ∀ {s : List Char} {acc p ds e : List Char},
      matchP1Go acc s = some (p, ds, e) →
      ∃ front sep, p = acc.reverse ++ front ∧ s = front ++ sep :: (ds ++ '.' :: e) ∧
        sep ∈ seps ∧ matchTail (ds ++ '.' :: e) = some (ds, e)
  | [], acc, p, ds, e, h => by simp [matchP1Go] at h
  | c :: rest, acc, p, ds, e, h => by
    rw [matchP1Go] at h
    split at h
    case h_1 de heq =>
      injection h with h1
      injection h1 with hp h2
      injection h2 with hds he
      subst hp; subst hds; subst he
      split at heq
      case isTrue hsep =>
        have hinv := matchTail_inv (t := rest) (by rw [heq])
        refine ⟨[], c, by simp, ?_, by simpa using hsep, ?_⟩
        · rw [List.nil_append, ← hinv.1]
        · rw [← hinv.1, heq]
      case isFalse => exact absurd heq (by simp)
    case h_2 heq =>
      split at h
      case isTrue => exact absurd h (by simp)
      case isFalse hnl =>
        obtain ⟨front, sep, hp, hs, hsep, hmt⟩ := matchP1Go_inv h
        refine ⟨c :: front, sep, ?_, by simp [hs], hsep, hmt⟩
        simp [hp]

theorem matchP2Go_inv :
    ∀ {s : List Char} {acc p ds e : List Char},
      matchP2Go acc s = some (p, ds, e) →
      ∃ front, p = acc.reverse ++ front ∧ s = front ++ ds ++ '.' :: e ∧
        matchTail (ds ++ '.' :: e) = some (ds, e)
  | [], acc, p, ds, e, h => by simp [matchP2Go] at h
  | c :: rest, acc, p, ds, e, h => by
    rw [matchP2Go] at h
    split at h
    case h_1 de heq =>
      injection h with h1
      injection h1 with hp h2
      injection h2 with hds he
      subst hp; subst hds; subst he
      have hinv := matchTail_inv (t := c :: rest) (by rw [heq])
      refine ⟨[], by simp, ?_, ?_⟩
      · rw [List.nil_append]
        exact hinv.1
      · rw [← hinv.1, heq]
    case h_2 heq =>
      split at h
      case isTrue => exact absurd h (by simp)
      case isFalse hnl =>
        obtain ⟨front, hp, hs, hmt⟩ := matchP2Go_inv h
        refine ⟨c :: front, ?_, by simp [hs], hmt⟩
        simp [hp]

/-- Any match decomposes the filename as
`front ++ index-digits ++ "." ++ extension` with the index 3–6 digits. -/
theorem matchRaw_decomp {s : String} {m : RawMatch} (h : matchRaw s = some m) :
    ∃ front, s.data = front ++ m.idxStr.data ++ '.' :: m.extRaw.data ∧
      (∀ c ∈ m.idxStr.data, isDig c = true) ∧
      3 ≤ m.idxStr.data.length ∧ m.idxStr.data.length ≤ 6 ∧
      isValidExt m.extRaw.data = true := by
  unfold matchRaw at h
  cases hraw : matchRawL s.data with
  | none => rw [hraw] at h; exact absurd h (by simp)
  | some r =>
    rw [hraw] at h
    obtain ⟨p, ds, e⟩ := r
    injection h with h1
    subst h1
    simp only
    unfold matchRawL at hraw
    split at hraw
    case h_1 r' heq =>
      obtain ⟨p', ds', e'⟩ := r'
      injection hraw with h2
      injection h2 with hp h3
      injection h3 with hds he
      subst hp; subst hds; subst he
      obtain ⟨front, sep, _, hs, _, hmt⟩ := matchP1Go_inv heq
      have hinv := matchTail_inv hmt
      refine ⟨front ++ [sep], ?_, hinv.2.1, hinv.2.2.1, hinv.2.2.2.1, hinv.2.2.2.2⟩
      rw [hs]
      simp
    case h_2 =>
      obtain ⟨front, _, hs, hmt⟩ := matchP2Go_inv hraw
      have hinv := matchTail_inv hmt
      exact ⟨front, by simpa using hs, hinv.2.1, hinv.2.2.1, hinv.2.2.2.1, hinv.2.2.2.2⟩

theorem validExt_no_dot {e : List Char} (h : isValidExt e = true) : '.' ∉ e := by
  intro hdot
  have hmem : '.' ∈ e.map Char.toLower := by
    have := List.mem_map_of_mem Char.toLower hdot
    simpa using this
  unfold isValidExt at h
  have h' : (e.map Char.toLower) ∈ extAlternatives := List.elem_iff.mp h
  simp only [extAlternatives, List.mem_cons, List.not_mem_nil, or_false] at h'
  rcases h' with h' | h' | h' | h' | h' | h' <;> rw [h'] at hmem <;> revert hmem <;> decide

theorem dot_split_unique :
    ∀ {a b u v : List Char}, a ++ '.' :: u = b ++ '.' :: v → '.' ∉ u → '.' ∉ v →
      a = b ∧ u = v
  | [], b, u, v, h, hu, hv => by
    cases b with
    | nil =>
      injection h with _ h2
      exact ⟨rfl, h2⟩
    | cons c b' =>
      rw [List.nil_append, List.cons_append] at h
      injection h with h1 h2
      exfalso
      apply hu
      rw [h2]
      exact List.mem_append_right b' (h1 ▸ List.mem_cons_self _ _)
  | c :: a', b, u, v, h, hu, hv => by
    cases b with
    | nil =>
      rw [List.nil_append, List.cons_append] at h
      injection h with h1 h2
      exfalso
      apply hv
      rw [← h2]
      exact List.mem_append_right a' (h1 ▸ List.mem_cons_self _ _)
    | cons c' b' =>
      rw [List.cons_append, List.cons_append] at h
      injection h with h1 h2
      obtain ⟨ha, huv⟩ := dot_split_unique h2 hu hv
      exact ⟨by rw [h1, ha], huv⟩

theorem takeWhile_append_all {p : Char → Bool} :
    ∀ {a : List Char} (b : List Char), (∀ c ∈ a, p c = true) →
      (a ++ b).takeWhile p = a ++ b.takeWhile p
  | [], b, _ => rfl
  | c :: a', b, h => by
    rw [List.cons_append, List.takeWhile_cons, if_pos (h c (List.mem_cons_self _ _)),
      List.cons_append, takeWhile_append_all b (fun x hx => h x (List.mem_cons_of_mem _ hx))]

/-! ## C1: pattern output round-trips the numeric value -/

/-- C1 (counterexample): `shot_0007.png` parses with prefix `shot`, not
`shot_` — the separator matched by `[._-]` is not captured in the prefix
group. -/
theorem C1_prefix_counterexample :
    parseFilename "shot_0007.png" = some ⟨"shot", 7, "png", 4⟩ ∧
    (parseFilename "shot_0007.png").map Parsed.pref ≠ some "shot_" := by
  constructor
  · decide
  · decide

/-- C1 (amended): for every filename matched by a recognized pattern, the
numeric value round-trips: zero-padding the parsed index back to the recorded
digit-width reproduces the index substring exactly; `shot_0007.png` parses to
prefix `shot` (the separator is not part of the captured prefix), index 7,
extension `png`, digit-width 4. -/
theorem C1_roundtrip :
    (∀ (s : String) (m : RawMatch), matchRaw s = some m →
      (⟨zfill m.idxStr.data.length (toDec (strVal m.idxStr.data))⟩ : String) = m.idxStr) ∧
    parseFilename "shot_0007.png" = some ⟨"shot", 7, "png", 4⟩ := by
  constructor
  · intro s m h
    obtain ⟨front, hs, hdig, h3, _, _⟩ := matchRaw_decomp h
    have hne : m.idxStr.data ≠ [] := by
      intro hz
      rw [hz] at h3
      simp at h3
    exact congrArg String.mk (zfill_toDec_strVal hne hdig)
  · decide

theorem C1_roundtrip_witness :
    (⟨zfill ("0007" : String).data.length (toDec (strVal ("0007" : String).data))⟩ : String)
      = "0007" :=
  C1_roundtrip.1 "shot_0007.png" ⟨"shot", "0007", "png"⟩ (by decide)

/-! ## C2: index-width bounds -/

/-- C2 (counterexample): `a_1234567.png` has a 7-digit index run before the
extension, yet it matches pattern 2 (the lazy prefix absorbs the leading `1`
and the index group captures the trailing 6 digits). -/
theorem C2_width_counterexample :
    (("a_1234567" : String).data.reverse.takeWhile isDig).length = 7 ∧
    parseFilename "a_1234567.png" = some ⟨"a_1", 234567, "png", 6⟩ := by
  constructor
  · decide
  · decide

/-- C2 (amended): a filename whose stem ends in fewer than 3 digits matches
neither pattern; but a stem ending in more than 6 digits still matches:
pattern 2 captures the trailing 6 digits as the index. -/
theorem C2_width_bounds :
    (∀ (stem ext : String), '.' ∉ ext.data →
      (stem.data.reverse.takeWhile isDig).length < 3 →
      matchRaw (stem ++ "." ++ ext) = none) ∧
    parseFilename "a_1234567.png" = some ⟨"a_1", 234567, "png", 6⟩ := by
  constructor
  · intro stem ext hext hlt
    cases hm : matchRaw (stem ++ "." ++ ext) with
    | none => rfl
    | some m =>
      exfalso
      obtain ⟨front, hs, hdig, h3, _, hv⟩ := matchRaw_decomp hm
      rw [String.data_append, String.data_append] at hs
      have hs' : stem.data ++ '.' :: ext.data = (front ++ m.idxStr.data) ++ '.' :: m.extRaw.data := by
        rw [List.append_assoc]
        simpa using hs
      obtain ⟨hstem, _⟩ := dot_split_unique hs' hext (validExt_no_dot hv)
      have hds : ∀ c ∈ m.idxStr.data.reverse, isDig c = true := by
        intro c hc
        exact hdig c (List.mem_reverse.mp hc)
      have htw : (stem.data.reverse.takeWhile isDig).length =
          m.idxStr.data.reverse.length + ((front.reverse).takeWhile isDig).length := by
        rw [hstem, List.reverse_append, takeWhile_append_all _ hds, List.length_append]
      rw [htw, List.length_reverse] at hlt
      omega
  · decide

theorem C2_width_bounds_witness : matchRaw ("b_01" ++ "." ++ "jpg") = none :=
  C2_width_bounds.1 "b_01" "jpg" (by decide) (by decide)

/-! ## C5, C6: thumbnail cache -/

theorem alookup_aupsert {κ ν : Type} [DecidableEq κ] (k : κ) (v : ν) :
    ∀ l : List (κ × ν), alookup k (aupsert k v l) = some v
  | [] => by simp [aupsert, alookup]
  | (k', v') :: rest => by
    by_cases h : k' = k
    · simp [aupsert, alookup, h]
    · simp [aupsert, alookup, h, alookup_aupsert k v rest]

/-- C5: a `get` immediately after a `put` with the identical
`(path, size, frame_idx)` key is a memory-tier hit: it returns the stored
image, leaves the cache unchanged, and performs no disk decode (the codec is
never invoked by `get` at all; the flag records `Image.open` on the disk
tier). -/
theorem C5_get_after_put {Img : Type} (c : ThumbCache Img) (disk : List (String × Img))
    (path : String) (frame_idx : Nat) (image : Img) :
    ((c.put disk path frame_idx image).1.get (c.put disk path frame_idx image).2.1
        path frame_idx) =
      (some image, (c.put disk path frame_idx image).1, false) := by
  unfold ThumbCache.put ThumbCache.get ThumbCache.key
  simp [alookup_aupsert]

/-- C6: the disk filename for a logical key is a deterministic function of the
root directory, target size, source path and frame index: two caches built
for the same root and size resolve every key to the same disk filename, and
that name is the SHA-1 hex digest of the key's `path|size|frame` string form,
under the root's cache directory. -/
theorem C6_disk_path_deterministic {Img₁ Img₂ : Type}
    (c₁ : ThumbCache Img₁) (c₂ : ThumbCache Img₂) (path : String) (frame_idx : Nat)
    (hroot : c₁.root_dir = c₂.root_dir) (hsize : c₁.size = c₂.size) :
    c₁.disk_path path frame_idx = c₂.disk_path path frame_idx ∧
    c₁.disk_path path frame_idx = joinPath (joinPath c₁.root_dir ".seqwall_cache")
      (sha1hexOfString (ThumbCache.keyString c₁.size path frame_idx) ++ ".png") := by
  constructor
  · unfold ThumbCache.disk_path ThumbCache.cache_dir
    rw [hroot, hsize]
  · rfl

theorem C6_witness :
    (ThumbCache.mk ([] : List ((String × Nat × Nat) × Nat)) "root" 200).disk_path
        "root/a_001.png" 0 =
      (ThumbCache.mk [(("other", 5, 7), (3 : Nat))] "root" 200).disk_path
        "root/a_001.png" 0 :=
  (C6_disk_path_deterministic _ _ "root/a_001.png" 0 rfl rfl).1

/-! ## C9: thumbnail codec resize -/

/-- C9: for source dimensions ≥ 1 (any decodable image), the code's resize
equals the spec-side construction: every color plane is multiplied by the
alpha plane before resampling (alpha itself is not premultiplied), and all
planes are resampled to `(max 1 ⌊w·s⌋, max 1 ⌊h·s⌋)` with
`s = min(box.w/w, box.h/h)` — the largest aspect-preserving size fitting the
box. Holds for every multiply and resample operator. -/
theorem C9_resize_premultiplied {P : Type} (mult : P → P → P)
    (resample : P → Nat → Nat → P) (img : RGBAImage P) (box : Nat × Nat)
    (hw : 1 ≤ img.width) (hh : 1 ≤ img.height) :
    resize_rgba_contain_premultiplied mult resample img box =
      resize_contain_spec mult resample img box := by
  unfold resize_rgba_contain_premultiplied resize_contain_spec
  dsimp only
  rw [Nat.max_eq_right hw, Nat.max_eq_right hh]

theorem C9_witness :
    resize_rgba_contain_premultiplied (fun a b => a * b) (fun p _ _ => p)
      (⟨4, 2, 10, 20, 30, 40⟩ : RGBAImage Nat) (2, 2) =
    resize_contain_spec (fun a b => a * b) (fun p _ _ => p)
      (⟨4, 2, 10, 20, 30, 40⟩ : RGBAImage Nat) (2, 2) :=
  C9_resize_premultiplied _ _ _ _ (by decide) (by decide)

/-! ## C7, C8: scheduler tick lemmas -/

theorem ensureFirst_preserves {Img : Type} (tid : Nat) (t : TileState)
    (cache : ThumbCache Img) (disk : List (String × Img)) :
    ((ensureFirst tid t cache disk).1).idx = t.idx ∧
    ((ensureFirst tid t cache disk).1).running = t.running ∧
    ((ensureFirst tid t cache disk).1).frames = t.frames ∧
    ((ensureFirst tid t cache disk).1).first_loaded = true ∨
      ((ensureFirst tid t cache disk).1).first_loaded = t.first_loaded ∧
      ((ensureFirst tid t cache disk).1).idx = t.idx ∧
      ((ensureFirst tid t cache disk).1).running = t.running ∧
      ((ensureFirst tid t cache disk).1).frames = t.frames := by
  unfold ensureFirst
  split
  · exact Or.inr ⟨rfl, rfl, rfl, rfl⟩
  · dsimp only
    split
    · exact Or.inl ⟨rfl, rfl, rfl, rfl⟩
    · exact Or.inr ⟨rfl, rfl, rfl, rfl⟩

theorem ensureFirst_idx {Img : Type} (tid : Nat) (t : TileState)
    (cache : ThumbCache Img) (disk : List (String × Img)) :
    ((ensureFirst tid t cache disk).1).idx = t.idx ∧
    ((ensureFirst tid t cache disk).1).running = t.running ∧
    ((ensureFirst tid t cache disk).1).frames = t.frames := by
  unfold ensureFirst
  split
  · exact ⟨rfl, rfl, rfl⟩
  · dsimp only
    split
    · exact ⟨rfl, rfl, rfl⟩
    · exact ⟨rfl, rfl, rfl⟩

theorem ensureFirst_of_loaded {Img : Type} (tid : Nat) (t : TileState)
    (cache : ThumbCache Img) (disk : List (String × Img)) (h : t.first_loaded = true) :
    ensureFirst tid t cache disk = (t, cache, []) := by
  unfold ensureFirst
  rw [h]
  simp

theorem ensureFirst_jobs_tile {Img : Type} (tid : Nat) (t : TileState)
    (cache : ThumbCache Img) (disk : List (String × Img)) :
    ∀ jb ∈ (ensureFirst tid t cache disk).2.2, jb.tile = tid := by
  unfold ensureFirst
  split
  · intro jb hjb; simp at hjb
  · dsimp only
    split
    · intro jb hjb; simp at hjb
    · intro jb hjb
      simp only [List.mem_singleton] at hjb
      rw [hjb]

theorem stepTile_not_running {Img : Type} (tid : Nat) (t : TileState) (stp : Nat)
    (cache : ThumbCache Img) (disk : List (String × Img)) (h : t.running = false) :
    stepTile tid t stp cache disk = (t, cache, []) := by
  unfold stepTile
  rw [h]
  simp

theorem stepTile_advances {Img : Type} (tid : Nat) (t : TileState) (stp : Nat)
    (cache : ThumbCache Img) (disk : List (String × Img)) (hr : t.running = true)
    (hf : t.first_loaded = true) (hne : t.frames ≠ []) :
    ((stepTile tid t stp cache disk).1).idx = (t.idx + stp) % t.frames.length := by
  have hne' : t.frames.isEmpty = false := by simpa [List.isEmpty_iff] using hne
  unfold stepTile
  rw [hr, hf, hne']
  split
  next hcond => simp at hcond
  next =>
    split
    next hcond => simp at hcond
    next =>
      dsimp only
      split
      · rfl
      · rfl

theorem stepTile_jobs_tile {Img : Type} (tid : Nat) (t : TileState) (stp : Nat)
    (cache : ThumbCache Img) (disk : List (String × Img)) :
    ∀ jb ∈ (stepTile tid t stp cache disk).2.2, jb.tile = tid := by
  unfold stepTile
  split
  · intro jb hjb; simp at hjb
  · split
    · exact ensureFirst_jobs_tile tid t cache disk
    · dsimp only
      split
      · intro jb hjb; simp at hjb
      · intro jb hjb
        simp only [List.mem_singleton] at hjb
        rw [hjb]

theorem tickGo_invisible_nth {Img : Type} (play : Bool) (stp : Nat) (y0 y1 : Int)
    (disk : List (String × Img)) (d : TileState) :
    ∀ (ts : List TileState) (cache : ThumbCache Img) (tid j : Nat),
      tileVisible (ts.getD j d) y0 y1 = false →
      (tickGo play stp y0 y1 disk tid ts cache).1.getD j d = ts.getD j d
  | [], cache, tid, j, _ => by simp [tickGo]
  | t :: ts', cache, tid, j, h => by
    rw [tickGo]
    cases j with
    | zero =>
      rw [List.getD_cons_zero] at h
      rw [if_neg (by simp [h])]
      rfl
    | succ j' =>
      rw [List.getD_cons_succ] at h
      by_cases hv : tileVisible t y0 y1 = true
      · rw [if_pos hv]
        dsimp only
        rw [List.getD_cons_succ, List.getD_cons_succ]
        exact tickGo_invisible_nth play stp y0 y1 disk d ts' _ (tid + 1) j' h
      · rw [if_neg hv]
        dsimp only
        rw [List.getD_cons_succ, List.getD_cons_succ]
        exact tickGo_invisible_nth play stp y0 y1 disk d ts' cache (tid + 1) j' h

theorem tickGo_jobs {Img : Type} (play : Bool) (stp : Nat) (y0 y1 : Int)
    (disk : List (String × Img)) (d : TileState) :
    ∀ (ts : List TileState) (cache : ThumbCache Img) (tid : Nat),
      ∀ jb ∈ (tickGo play stp y0 y1 disk tid ts cache).2.2,
        ∃ k, k < ts.length ∧ jb.tile = tid + k ∧
          tileVisible (ts.getD k d) y0 y1 = true
  | [], cache, tid => by intro jb hjb; simp [tickGo] at hjb
  | t :: ts', cache, tid => by
    intro jb hjb
    rw [tickGo] at hjb
    by_cases hv : tileVisible t y0 y1 = true
    · rw [if_pos hv] at hjb
      dsimp only at hjb
      rw [List.mem_append, List.mem_append] at hjb
      rcases hjb with (hjb | hjb) | hjb
      · exact ⟨0, by simp, by rw [ensureFirst_jobs_tile _ _ _ _ jb hjb, Nat.add_zero],
          by simpa using hv⟩
      · refine ⟨0, by simp, ?_, by simpa using hv⟩
        rcases hp : play with _ | _
        · rw [hp] at hjb
          simp at hjb
        · rw [hp] at hjb
          simp only [if_pos rfl] at hjb
          rw [Nat.add_zero]
          exact stepTile_jobs_tile _ _ _ _ _ jb hjb
      · obtain ⟨k, hk, htile, hvis⟩ := tickGo_jobs play stp y0 y1 disk d ts' _ (tid + 1) jb hjb
        exact ⟨k + 1, by simpa using Nat.succ_lt_succ hk,
          by rw [htile]; omega, by simpa using hvis⟩
    · rw [if_neg hv] at hjb
      dsimp only at hjb
      obtain ⟨k, hk, htile, hvis⟩ := tickGo_jobs play stp y0 y1 disk d ts' cache (tid + 1) jb hjb
      exact ⟨k + 1, by simpa using Nat.succ_lt_succ hk,
        by rw [htile]; omega, by simpa using hvis⟩

/-- C7: a tick never touches an off-screen tile: if a tile's bounding box does
not intersect the visible vertical range, the tick leaves its state unchanged
and submits no job on its behalf (neither a first-frame load nor a
frame-advance decode). -/
theorem C7_invisible_tiles_skipped {Img : Type} (st : AppState Img) (j : Nat) (d : TileState)
    (h : tileVisible (st.tiles.getD j d) st.visY0 st.visY1 = false) :
    (tick st).1.tiles.getD j d = st.tiles.getD j d ∧
    ∀ jb ∈ (tick st).2, jb.tile ≠ j := by
  unfold tick
  by_cases hemp : st.tiles.isEmpty
  · rw [if_pos hemp]
    exact ⟨rfl, by intro jb hjb; simp at hjb⟩
  · rw [if_neg hemp]
    dsimp only
    refine ⟨tickGo_invisible_nth _ _ _ _ _ d st.tiles st.cache 0 j h, ?_⟩
    intro jb hjb hq
    obtain ⟨k, _, htile, hvis⟩ := tickGo_jobs _ _ _ _ _ d st.tiles st.cache 0 jb hjb
    rw [hq, Nat.zero_add] at htile
    rw [htile] at h
    rw [h] at hvis
    exact Bool.false_ne_true hvis

theorem tickGo_frozen_nth {Img : Type} (play : Bool) (stp : Nat) (y0 y1 : Int)
    (disk : List (String × Img)) (d : TileState) :
    ∀ (ts : List TileState) (cache : ThumbCache Img) (tid j : Nat),
      (ts.getD j d).running = false →
      ((tickGo play stp y0 y1 disk tid ts cache).1.getD j d).idx = (ts.getD j d).idx
  | [], cache, tid, j, _ => by simp [tickGo]
  | t :: ts', cache, tid, j, h => by
    rw [tickGo]
    cases j with
    | zero =>
      rw [List.getD_cons_zero] at h ⊢
      by_cases hv : tileVisible t y0 y1 = true
      · rw [if_pos hv]
        dsimp only
        rw [List.getD_cons_zero]
        obtain ⟨hidx, hrun, _⟩ := ensureFirst_idx tid t cache disk
        rcases hp : play with _ | _
        · simp only [hp, if_neg Bool.false_ne_true]
          exact hidx
        · simp only [hp, if_pos rfl]
          rw [stepTile_not_running _ _ _ _ _ (by rw [hrun, h])]
          exact hidx
      · rw [if_neg hv]
        dsimp only
        rw [List.getD_cons_zero]
    | succ j' =>
      rw [List.getD_cons_succ] at h ⊢
      by_cases hv : tileVisible t y0 y1 = true
      · rw [if_pos hv]
        dsimp only
        rw [List.getD_cons_succ]
        exact tickGo_frozen_nth play stp y0 y1 disk d ts' _ (tid + 1) j' h
      · rw [if_neg hv]
        dsimp only
        rw [List.getD_cons_succ]
        exact tickGo_frozen_nth play stp y0 y1 disk d ts' cache (tid + 1) j' h

theorem tickGo_advance_nth {Img : Type} (stp : Nat) (y0 y1 : Int)
    (disk : List (String × Img)) (d : TileState) :
    ∀ (ts : List TileState) (cache : ThumbCache Img) (tid k : Nat),
      k < ts.length →
      (ts.getD k d).running = true →
      (ts.getD k d).first_loaded = true →
      (ts.getD k d).frames ≠ [] →
      tileVisible (ts.getD k d) y0 y1 = true →
      ((tickGo true stp y0 y1 disk tid ts cache).1.getD k d).idx =
        ((ts.getD k d).idx + stp) % (ts.getD k d).frames.length
  | [], _, _, k, hk, _, _, _, _ => absurd hk (by simp)
  | t :: ts', cache, tid, k, hk, hr, hf, hne, hv => by
    rw [tickGo]
    cases k with
    | zero =>
      rw [List.getD_cons_zero] at hr hf hne hv ⊢
      rw [if_pos hv]
      dsimp only
      rw [List.getD_cons_zero]
      rw [ensureFirst_of_loaded tid t cache disk hf]
      simp only [if_pos rfl]
      exact stepTile_advances tid t stp cache disk hr hf hne
    | succ k' =>
      rw [List.getD_cons_succ] at hr hf hne hv ⊢
      have hk' : k' < ts'.length := by simpa using Nat.lt_of_succ_lt_succ (by simpa using hk)
      by_cases hvt : tileVisible t y0 y1 = true
      · rw [if_pos hvt]
        dsimp only
        rw [List.getD_cons_succ]
        exact tickGo_advance_nth stp y0 y1 disk d ts' _ (tid + 1) k' hk' hr hf hne hv
      · rw [if_neg hvt]
        dsimp only
        rw [List.getD_cons_succ]
        exact tickGo_advance_nth stp y0 y1 disk d ts' cache (tid + 1) k' hk' hr hf hne hv

/-- C8: with the global play flag set, a tile whose per-tile `running` flag is
false keeps its frame index unchanged across a tick, while every running,
loaded, visible tile with frames advances its index by the configured step
modulo its frame count on that same tick. -/
theorem C8_per_tile_pause {Img : Type} (st : AppState Img) (d : TileState)
    (hplay : st.animate = true) :
    (∀ j, (st.tiles.getD j d).running = false →
      ((tick st).1.tiles.getD j d).idx = (st.tiles.getD j d).idx) ∧
    (∀ k, k < st.tiles.length →
      (st.tiles.getD k d).running = true →
      (st.tiles.getD k d).first_loaded = true →
      (st.tiles.getD k d).frames ≠ [] →
      tileVisible (st.tiles.getD k d) st.visY0 st.visY1 = true →
      ((tick st).1.tiles.getD k d).idx =
        ((st.tiles.getD k d).idx + max 1 st.frame_step) %
          (st.tiles.getD k d).frames.length) := by
  unfold tick
  by_cases hemp : st.tiles.isEmpty
  · rw [if_pos hemp]
    constructor
    · intro j _
      rfl
    · intro k hk
      exfalso
      rw [List.isEmpty_iff] at hemp
      rw [hemp] at hk
      simp at hk
  · rw [if_neg hemp]
    dsimp only
    constructor
    · intro j hj
      exact tickGo_frozen_nth st.animate (max 1 st.frame_step) _ _ _ d
        st.tiles st.cache 0 j hj
    · intro k hk hr hf hne hv
      rw [hplay]
      exact tickGo_advance_nth (max 1 st.frame_step) _ _ _ d
        st.tiles st.cache 0 k hk hr hf hne hv

/-! Concrete states for the scheduler witnesses. -/

def tileA : TileState :=
  ⟨["r/a_001.png", "r/a_002.png", "r/a_003.png"], 1, false, true, false, 200, 0, 100⟩

def tileB : TileState :=
  ⟨["r/b_001.png", "r/b_002.png", "r/b_003.png"], 0, true, true, false, 200, 0, 100⟩

def offTile : TileState :=
  ⟨["r/c_001.png", "r/c_002.png", "r/c_003.png"], 0, true, false, false, 200, 1000, 100⟩

def demoCache : ThumbCache Nat := ⟨[], "r", 200⟩

def demoState : AppState Nat := ⟨[tileA, tileB], demoCache, [], true, 2, 0, 500⟩

def demoState2 : AppState Nat := ⟨[tileA, offTile], demoCache, [], true, 2, 0, 500⟩

theorem C7_witness :
    (tick demoState2).1.tiles.getD 1 tileA = demoState2.tiles.getD 1 tileA ∧
    ∀ jb ∈ (tick demoState2).2, jb.tile ≠ 1 :=
  C7_invisible_tiles_skipped demoState2 1 tileA (by decide)

theorem C8_witness :
    ((tick demoState).1.tiles.getD 0 tileA).idx = (demoState.tiles.getD 0 tileA).idx ∧
    ((tick demoState).1.tiles.getD 1 tileA).idx =
      ((demoState.tiles.getD 1 tileA).idx + max 1 demoState.frame_step) %
        (demoState.tiles.getD 1 tileA).frames.length :=
  ⟨(C8_per_tile_pause demoState tileA rfl).1 0 (by decide),
   (C8_per_tile_pause demoState tileA rfl).2 1 (by decide) (by decide) (by decide)
     (by decide) (by decide)⟩

/-! ## C3, C4, C10: discovery inversion -/

theorem mem_upsertSeq {k : String} {v : SequenceItem} :
    ∀ {l : List (String × SequenceItem)} {p}, p ∈ upsertSeq k v l → p ∈ l ∨ p = (k, v)
  | [], p, h => by
    rw [upsertSeq] at h
    exact Or.inr (by simpa using h)
  | (k', v') :: rest, p, h => by
    rw [upsertSeq] at h
    by_cases hk : k' = k
    · rw [if_pos hk] at h
      rcases List.mem_cons.mp h with h | h
      · exact Or.inr (by rw [h, hk])
      · exact Or.inl (List.mem_cons_of_mem _ h)
    · rw [if_neg hk] at h
      rcases List.mem_cons.mp h with h | h
      · exact Or.inl (h ▸ List.mem_cons_self _ _)
      · rcases mem_upsertSeq h with h | h
        · exact Or.inl (List.mem_cons_of_mem _ h)
        · exact Or.inr h

theorem mem_processDir_fold {dirpath : String} {p : String × SequenceItem} :
    ∀ (gs : List (GroupKey × List Entry)) (acc : List (String × SequenceItem)),
      p ∈ gs.foldl
          (fun acc g =>
            if 3 ≤ (List.insertionSort entryLE g.2).length then
              upsertSeq (mkSeqKey dirpath g) (mkSeqItem dirpath g) acc
            else acc) acc →
      p ∈ acc ∨ ∃ g ∈ gs, 3 ≤ (List.insertionSort entryLE g.2).length ∧
        p = (mkSeqKey dirpath g, mkSeqItem dirpath g)
  | [], acc, h => Or.inl h
  | g :: gs', acc, h => by
    rw [List.foldl_cons] at h
    rcases mem_processDir_fold gs' _ h with h' | ⟨g', hg', hlen', hp'⟩
    · by_cases hlen : 3 ≤ (List.insertionSort entryLE g.2).length
      · rw [if_pos hlen] at h'
        rcases mem_upsertSeq h' with h'' | h''
        · exact Or.inl h''
        · exact Or.inr ⟨g, List.mem_cons_self _ _, hlen, h''⟩
      · rw [if_neg hlen] at h'
        exact Or.inl h'
    · exact Or.inr ⟨g', List.mem_cons_of_mem _ hg', hlen', hp'⟩

theorem mem_processDir {acc : List (String × SequenceItem)} {dirpath : String}
    {filenames : List String} {p : String × SequenceItem}
    (h : p ∈ processDir acc dirpath filenames) :
    p ∈ acc ∨ ∃ g ∈ buildTemp filenames, 3 ≤ (List.insertionSort entryLE g.2).length ∧
      p = (mkSeqKey dirpath g, mkSeqItem dirpath g) :=
  mem_processDir_fold (buildTemp filenames) acc h

theorem mem_walk_fold {p : String × SequenceItem} :
    ∀ (walk : List (String × List String)) (acc : List (String × SequenceItem)),
      p ∈ walk.foldl (fun acc d => processDir acc d.1 d.2) acc →
      p ∈ acc ∨ ∃ df ∈ walk, ∃ g ∈ buildTemp df.2,
        3 ≤ (List.insertionSort entryLE g.2).length ∧
        p = (mkSeqKey df.1 g, mkSeqItem df.1 g)
  | [], acc, h => Or.inl h
  | df :: walk', acc, h => by
    rw [List.foldl_cons] at h
    rcases mem_walk_fold walk' _ h with h' | ⟨df', hdf', hg'⟩
    · rcases mem_processDir h' with h'' | ⟨g, hg, hlen, hp⟩
      · exact Or.inl h''
      · exact Or.inr ⟨df, List.mem_cons_self _ _, g, hg, hlen, hp⟩
    · exact Or.inr ⟨df', List.mem_cons_of_mem _ hdf', hg'⟩

/-- Every discovered sequence is the item built from some qualifying
(≥ 3 entries) group of some walked directory. -/
theorem find_sequences_inv {walk : List (String × List String)} {s : SequenceItem}
    (h : s ∈ find_sequences walk) :
    ∃ df ∈ walk, ∃ g ∈ buildTemp df.2,
      3 ≤ (List.insertionSort entryLE g.2).length ∧ s = mkSeqItem df.1 g := by
  unfold find_sequences at h
  rw [(List.perm_insertionSort seqKeyLE _).mem_iff] at h
  rw [List.mem_map] at h
  obtain ⟨p, hp, rfl⟩ := h
  rcases mem_walk_fold walk [] hp with h' | ⟨df, hdf, g, hg, hlen, hp'⟩
  · simp at h'
  · exact ⟨df, hdf, g, hg, hlen, by rw [hp']⟩

/-- C10: the list of sequences returned by discovery is sorted ascending by
the case-lowered key string (`sorted(..., key=lambda s: s.key.lower())`). -/
theorem C10_output_sorted (walk : List (String × List String)) :
    List.Sorted seqKeyLE (find_sequences walk) := by
  unfold find_sequences
  exact List.sorted_insertionSort seqKeyLE _

/-- C3: a group yields a Sequence exactly on ≥ 3 frames: every discovered
sequence has at least 3 frames; in the end-to-end scenario
(`a_001.png`..`a_010.png` plus `b_01.jpg`, `b_02.jpg` in one folder) exactly
one sequence is discovered — the `a` group with its 10 frames — and with
3-digit groups `x` (2 frames) and `y` (3 frames), exactly the `y` group is
emitted. -/
theorem C3_group_threshold :
    (∀ (walk : List (String × List String)) (s : SequenceItem),
      s ∈ find_sequences walk → 3 ≤ s.frames.length) ∧
    find_sequences [("root",
        ["a_001.png", "a_002.png", "a_003.png", "a_004.png", "a_005.png", "a_006.png",
         "a_007.png", "a_008.png", "a_009.png", "a_010.png", "b_01.jpg", "b_02.jpg"])] =
      [⟨"root/a[##].png", "root", "a", "png",
        ["root/a_001.png", "root/a_002.png", "root/a_003.png", "root/a_004.png",
         "root/a_005.png", "root/a_006.png", "root/a_007.png", "root/a_008.png",
         "root/a_009.png", "root/a_010.png"], 3⟩] ∧
    find_sequences [("d", ["x_001.png", "x_002.png", "y_001.png", "y_002.png", "y_003.png"])] =
      [⟨"d/y[##].png", "d", "y", "png",
        ["d/y_001.png", "d/y_002.png", "d/y_003.png"], 3⟩] := by
  refine ⟨?_, by decide, by decide⟩
  intro walk s hs
  obtain ⟨df, _, g, _, hlen, rfl⟩ := find_sequences_inv hs
  unfold mkSeqItem
  dsimp only
  rw [List.length_map]
  exact hlen

theorem C3_witness :
    3 ≤ (⟨"d/y[##].png", "d", "y", "png",
        ["d/y_001.png", "d/y_002.png", "d/y_003.png"], 3⟩ : SequenceItem).frames.length :=
  C3_group_threshold.1 [("d", ["x_001.png", "x_002.png", "y_001.png", "y_002.png", "y_003.png"])]
    _ (by decide)

theorem upsertEntry_pred {P : Entry → Prop} {k : GroupKey} {e₀ : Entry} (hP : P e₀) :
    ∀ {l : List (GroupKey × List Entry)}, (∀ g ∈ l, ∀ e ∈ g.2, P e) →
      ∀ g ∈ upsertEntry k e₀ l, ∀ e ∈ g.2, P e
  | [], _, g, hg, e, he => by
    rw [upsertEntry] at hg
    simp only [List.mem_singleton] at hg
    rw [hg] at he
    simp only [List.mem_singleton] at he
    rw [he]
    exact hP
  | (k', es) :: rest, hl, g, hg, e, he => by
    rw [upsertEntry] at hg
    by_cases hk : k' = k
    · rw [if_pos hk] at hg
      rcases List.mem_cons.mp hg with hg | hg
      · rw [hg] at he
        rcases List.mem_append.mp he with he' | he'
        · exact hl (k', es) (List.mem_cons_self _ _) e he'
        · simp only [List.mem_singleton] at he'
          rw [he']
          exact hP
      · exact hl g (List.mem_cons_of_mem _ hg) e he
    · rw [if_neg hk] at hg
      rcases List.mem_cons.mp hg with hg | hg
      · rw [hg] at he
        exact hl (k', es) (List.mem_cons_self _ _) e he
      · exact upsertEntry_pred hP (fun g' hg' => hl g' (List.mem_cons_of_mem _ hg')) g hg e he

/-- Every entry recorded in `temp` came from a successful match on a file of
the directory, with the index value and width taken from the match. -/
theorem buildTemp_entries {filenames : List String} :
    ∀ g ∈ buildTemp filenames, ∀ e ∈ g.2,
      ∃ m, matchRaw e.2.1 = some m ∧ e.1 = strVal m.idxStr.data ∧
        e.2.2 = m.idxStr.data.length ∧ e.2.1 ∈ filenames := by
  have H : ∀ (fs : List String) (temp : List (GroupKey × List Entry)),
      (∀ f ∈ fs, f ∈ filenames) →
      (∀ g ∈ temp, ∀ e ∈ g.2,
        ∃ m, matchRaw e.2.1 = some m ∧ e.1 = strVal m.idxStr.data ∧
          e.2.2 = m.idxStr.data.length ∧ e.2.1 ∈ filenames) →
      ∀ g ∈ fs.foldl
          (fun temp f =>
            match matchRaw f with
            | some m => upsertEntry (m.pre, lowerStr m.extRaw)
                (strVal m.idxStr.data, f, m.idxStr.data.length) temp
            | none => temp) temp,
        ∀ e ∈ g.2,
        ∃ m, matchRaw e.2.1 = some m ∧ e.1 = strVal m.idxStr.data ∧
          e.2.2 = m.idxStr.data.length ∧ e.2.1 ∈ filenames := by
    intro fs
    induction fs with
    | nil => intro temp _ htemp; exact htemp
    | cons f fs' ih =>
      intro temp hsub htemp
      rw [List.foldl_cons]
      apply ih _ (fun x hx => hsub x (List.mem_cons_of_mem _ hx))
      cases hm : matchRaw f with
      | none => simpa [hm] using htemp
      | some m =>
        simp only [hm]
        exact upsertEntry_pred
          ⟨m, hm, rfl, rfl, hsub f (List.mem_cons_self _ _)⟩ htemp
  intro g hg
  exact H _ [] (fun f hf => List.mem_of_mem_filter hf)
    (by intro g' hg'; simp at hg') g hg

theorem takeWhile_all_eq {p : Char → Bool} {l : List Char} (h : ∀ c ∈ l, p c = true) :
    l.takeWhile p = l := by
  simpa using takeWhile_append_all (a := l) [] h

theorem basenameOf_joinPath (a b : String) (hb : '/' ∉ b.data) :
    basenameOf (joinPath a b) = b := by
  have hbp : ∀ c ∈ b.data.reverse, (decide ¬(c = '/')) = true := by
    intro c hc
    simp only [decide_not, Bool.not_eq_true', decide_eq_false_iff_not]
    intro hcc
    exact hb (List.mem_reverse.mp (hcc ▸ hc))
  unfold joinPath basenameOf
  split
  · rw [takeWhile_all_eq hbp, List.reverse_reverse]
  · split
    case isTrue hlast =>
      have hrev : a.data.reverse.head? = some '/' := by
        rw [List.head?_reverse]
        exact hlast
      cases harev : a.data.reverse with
      | nil => rw [harev] at hrev; simp at hrev
      | cons c rest =>
        rw [harev] at hrev
        simp only [List.head?_cons, Option.some.injEq] at hrev
        show (⟨(((⟨a.data ++ b.data⟩ : String).data.reverse.takeWhile _).reverse)⟩ : String) = b
        have hdata : (⟨a.data ++ b.data⟩ : String).data = a.data ++ b.data := rfl
        rw [hdata, List.reverse_append, harev, hrev,
          takeWhile_append_all _ hbp, List.takeWhile_cons]
        simp
    case isFalse =>
      show (⟨(((⟨a.data ++ '/' :: b.data⟩ : String).data.reverse.takeWhile _).reverse)⟩ : String) = b
      have hdata : (⟨a.data ++ '/' :: b.data⟩ : String).data = a.data ++ '/' :: b.data := rfl
      rw [hdata, List.reverse_append, List.reverse_cons, List.append_assoc,
        List.singleton_append, takeWhile_append_all _ hbp, List.takeWhile_cons]
      simp

/-- C4 (counterexample): with `a_007.png` and `a_0007.png` in one directory
both parsing to index 7 (different zero-padding), the discovered sequence's
parsed indices are `7, 7, 8` — not strictly ascending; and the claim's own
example files `frame_9.png`, `frame_10.png`, `frame_11.png` (1–2 digit
indices) match no pattern, so they form no sequence at all. -/
theorem C4_strict_counterexample :
    (find_sequences [("d", ["a_007.png", "a_0007.png", "a_008.png"])]).map
        (fun s => s.frames.map parseIdxOfPath) = [[some 7, some 7, some 8]] ∧
    ¬ List.Chain' (· < ·) [7, 7, 8] ∧
    find_sequences [("d", ["frame_9.png", "frame_10.png", "frame_11.png"])] = [] := by
  refine ⟨by decide, by simp [List.chain'_cons], by decide⟩

/-- C4 (amended): every discovered sequence's frames are ordered
non-decreasing by the integer index parsed from the filename (strict only when
indices are distinct; equal indices arise from differing zero-padding), and
the order is numeric, not lexical: `frame_009.png`, `frame_0010.png`,
`frame_011.png` order as 9, 10, 11 even though `frame_0010` sorts lexically
first. -/
theorem C4_frames_sorted :
    (∀ (walk : List (String × List String)),
      (∀ df ∈ walk, ∀ f ∈ df.2, '/' ∉ f.data) →
      ∀ s ∈ find_sequences walk,
        ∃ l : List Nat, s.frames.map parseIdxOfPath = l.map some ∧
          l.Pairwise (· ≤ ·)) ∧
    (find_sequences [("d", ["frame_0010.png", "frame_009.png", "frame_011.png"])]).map
        SequenceItem.frames =
      [["d/frame_009.png", "d/frame_0010.png", "d/frame_011.png"]] := by
  constructor
  · intro walk hns s hs
    obtain ⟨df, hdf, g, hg, _, rfl⟩ := find_sequences_inv hs
    refine ⟨(List.insertionSort entryLE g.2).map Prod.fst, ?_, ?_⟩
    · unfold mkSeqItem
      dsimp only
      rw [List.map_map, List.map_map]
      apply List.map_congr_left
      intro e he
      have he' : e ∈ g.2 := (List.perm_insertionSort entryLE g.2).mem_iff.mp he
      obtain ⟨m, hm, hidx, _, hfmem⟩ := buildTemp_entries g hg e he'
      have hnos : '/' ∉ e.2.1.data := hns df hdf e.2.1 hfmem
      show parseIdxOfPath (joinPath df.1 e.2.1) = some e.1
      unfold parseIdxOfPath
      rw [basenameOf_joinPath df.1 e.2.1 hnos, hm]
      simp [hidx]
    · exact List.Pairwise.map Prod.fst (fun a b hab => hab)
        (List.sorted_insertionSort entryLE g.2)
  · decide

theorem C4_witness :
    ∃ l : List Nat,
      (⟨"d/a[##].png", "d", "a", "png",
        ["d/a_007.png", "d/a_0007.png", "d/a_008.png"], 3⟩ : SequenceItem).frames.map
          parseIdxOfPath = l.map some ∧ l.Pairwise (· ≤ ·) :=
  C4_frames_sorted.1 [("d", ["a_007.png", "a_0007.png", "a_008.png"])]
    (by decide) _ (by decide)

end SeqWall
